import Mathlib

/-!
Verification development for the worktree-state resolution and pull-request
reconciliation engine of a git-worktree management CLI (Rust).

The Rust sources are shallowly embedded: strings are Lean `String`s, but every
string operation the code performs (prefix tests, splitting, case mapping) is
implemented here by structural recursion over `String.data` so that all
definitions are executable and reduce inside the kernel.  Rust `&str` byte
operations coincide with these character operations because every literal the
code manipulates is ASCII.  `Result<T, E>` is embedded as `Except String T`;
external effects (the git subprocess, HTTP clients) are passed in as explicit
query-result arguments or lookup functions.
-/

namespace GwtSpec

/-! ## Character-level string utilities -/

/-- Data of `s ++ t` is the concatenation of the data. -/
theorem string_data_append (s t : String) : (s ++ t).data = s.data ++ t.data := by
  cases s; cases t; rfl

/-- Rebuilding a string from its character data is the identity. -/
theorem string_mk_data (s : String) : (⟨s.data⟩ : String) = s := by
  cases s; rfl

/-- Split a character list at every occurrence of `sep`; models Rust
`str::lines` (for `sep = '\n'`) and `str::split` on one-character patterns.
Like Rust `split`, adjacent separators yield empty segments; unlike Rust
`lines`, a trailing newline yields a final empty segment, which is inert for
every consumer in this development (an empty line parses as an ignored line). -/
def splitOnCh (sep : Char) : List Char → List (List Char)
  | [] => [[]]
  | c :: cs =>
    if c = sep then
      [] :: splitOnCh sep cs
    else
      match splitOnCh sep cs with
      | [] => [[c]]
      | l :: ls => (c :: l) :: ls

theorem splitOnCh_ne_nil (sep : Char) (l : List Char) : splitOnCh sep l ≠ [] := by
  induction l with
  | nil => simp [splitOnCh]
  | cons c cs ih =>
    by_cases h : c = sep
    · simp [splitOnCh, h]
    · simp only [splitOnCh, if_neg h]
      cases hs : splitOnCh sep cs with
      | nil => simp
      | cons a as => simp

/-- Splitting a separator-free list yields the single segment. -/
theorem splitOnCh_no_sep (sep : Char) (l : List Char) (h : ∀ c ∈ l, c ≠ sep) :
    splitOnCh sep l = [l] := by
  induction l with
  | nil => rfl
  | cons c cs ih =>
    have hc : c ≠ sep := h c (by simp)
    simp only [splitOnCh, if_neg hc]
    rw [ih (fun x hx => h x (by simp [hx]))]

/-- Splitting at an explicit separator occurrence. -/
theorem splitOnCh_append_cons (sep : Char) (l r : List Char) (h : ∀ c ∈ l, c ≠ sep) :
    splitOnCh sep (l ++ sep :: r) = l :: splitOnCh sep r := by
  induction l with
  | nil => simp [splitOnCh]
  | cons c cs ih =>
    have hc : c ≠ sep := h c (by simp)
    simp only [List.cons_append, splitOnCh, if_neg hc, List.append_eq]
    rw [ih (fun x hx => h x (by simp [hx]))]

/-- The line view of a string, as Rust `str::lines` produces it for
newline-terminated-or-not text without carriage returns. -/
def strLines (s : String) : List String :=
  (splitOnCh '\n' s.data).map fun l => (⟨l⟩ : String)

/-- Join character lines with single newlines (no trailing newline). -/
def joinData : List (List Char) → List Char
  | [] => []
  | [l] => l
  | l :: ls => l ++ '\n' :: joinData ls

/-- Join string lines with single newlines (no trailing newline). -/
def joinLines (ls : List String) : String :=
  ⟨joinData (ls.map String.data)⟩

/-- Render lines each terminated by a newline (used to prepend a line block
in front of arbitrary remaining text). -/
def prefData : List (List Char) → List Char
  | [] => []
  | l :: ls => l ++ '\n' :: prefData ls

/-- String form of `prefData`. -/
def leadingLinesText (ls : List String) : String :=
  ⟨prefData (ls.map String.data)⟩

theorem splitOnCh_prefData (sep : Char) :
    ∀ (L : List (List Char)) (r : List Char), sep = '\n' →
      (∀ l ∈ L, ∀ c ∈ l, c ≠ '\n') →
      splitOnCh sep (prefData L ++ r) = L ++ splitOnCh sep r := by
  intro L
  induction L with
  | nil => intro r _ _; simp [prefData]
  | cons l ls ih =>
    intro r hsep h
    subst hsep
    have hl : ∀ c ∈ l, c ≠ '\n' := h l (by simp)
    simp only [prefData, List.append_assoc, List.cons_append]
    rw [splitOnCh_append_cons '\n' l _ hl, ih r rfl (fun x hx => h x (by simp [hx]))]

/-- Joining nonempty newline-free lines and re-splitting recovers the lines. -/
theorem splitOnCh_joinData :
    ∀ (L : List (List Char)), L ≠ [] → (∀ l ∈ L, ∀ c ∈ l, c ≠ '\n') →
      splitOnCh '\n' (joinData L) = L := by
  intro L
  induction L with
  | nil => intro h; exact absurd rfl h
  | cons l ls ih =>
    intro _ h
    cases ls with
    | nil => exact splitOnCh_no_sep '\n' l (h l (by simp))
    | cons m ms =>
      have hl : ∀ c ∈ l, c ≠ '\n' := h l (by simp)
      show splitOnCh '\n' (l ++ '\n' :: joinData (m :: ms)) = _
      rw [splitOnCh_append_cons '\n' l _ hl,
        ih (by simp) (fun x hx => h x (by simp [hx]))]

/-- Boolean prefix test on strings (Rust `str::starts_with`). -/
def strStartsWith (s pre : String) : Bool :=
  pre.data.isPrefixOf s.data

/-- Drop the first `n` characters (Rust slicing past an ASCII prefix). -/
def strDrop (s : String) (n : Nat) : String :=
  ⟨s.data.drop n⟩

/-- Take the first `n` characters (Rust `chars().take(n)`). -/
def strTake (s : String) (n : Nat) : String :=
  ⟨s.data.take n⟩

/-- Rust `str::to_lowercase` restricted to the ASCII strings the code meets. -/
def strLower (s : String) : String :=
  ⟨s.data.map Char.toLower⟩

/-- Rust `str::to_uppercase` restricted to the ASCII strings the code meets. -/
def strUpper (s : String) : String :=
  ⟨s.data.map Char.toUpper⟩

/-- Substring occurrence test on character lists (leftmost scan). -/
def containsSub (hay needle : List Char) : Bool :=
  match hay with
  | [] => needle.isEmpty
  | c :: tl => needle.isPrefixOf (c :: tl) || containsSub tl needle

/-- Rust `str::contains` on a literal substring pattern. -/
def strContains (s sub : String) : Bool :=
  containsSub s.data sub.data

/-! ## Worktree list parser (src/git.rs) -/

/-- `Worktree` of src/git.rs; `PathBuf` is embedded as the path string. -/
structure Worktree where
  path : String
  head : String
  branch : Option String
  bare : Bool
deriving Repr, DecidableEq

/-- `WorktreeLine` of src/git.rs. -/
inductive WorktreeLine where
  | New (path : String)
  | Head (head : String)
  | Branch (branch : String)
  | Bare
  | Other
deriving Repr, DecidableEq

/-- `parse_worktree_line` of src/git.rs: `strip_prefix` tried in order, then
the literal `bare` line, else an ignored line. -/
def parse_worktree_line (line : String) : WorktreeLine :=
  if strStartsWith line "worktree " then .New (strDrop line 9)
  else if strStartsWith line "HEAD " then .Head (strDrop line 5)
  else if strStartsWith line "branch " then .Branch (strDrop line 7)
  else if line = "bare" then .Bare
  else .Other

/-- The accumulator struct local to `parse_worktree_list` (named
`PartialWorktree` in the source). -/
structure PendingWorktree where
  path : Option String := none
  head : Option String := none
  branch : Option String := none
  bare : Bool := false
deriving Repr, DecidableEq

/-- `PartialWorktree::into_worktree`: a record missing `path` or `head` is
dropped (`None`). -/
def PendingWorktree.into_worktree (w : PendingWorktree) : Option Worktree :=
  match w.path, w.head with
  | some p, some h => some ⟨p, h, w.branch, w.bare⟩
  | _, _ => none

/-- Emit the current accumulator if it is complete, as the source does both
when a new `worktree` line opens and at end of input. -/
def flushPending (cur : Option PendingWorktree) : List Worktree :=
  match cur with
  | none => []
  | some w =>
    match w.into_worktree with
    | some wt => [wt]
    | none => []

/-- The line loop of `parse_worktree_list`: state is the optional current
accumulator, `acc` the emitted records; `HEAD`/`branch`/`bare` lines mutate
the accumulator only when one is open (`if let Some(ref mut wt)`). -/
def parseGo : List String → Option PendingWorktree → List Worktree → List Worktree
  | [], cur, acc => acc ++ flushPending cur
  | line :: rest, cur, acc =>
    match parse_worktree_line line with
    | .New p => parseGo rest (some { path := some p }) (acc ++ flushPending cur)
    | .Head h => parseGo rest (cur.map fun w => { w with head := some h }) acc
    | .Branch b => parseGo rest (cur.map fun w => { w with branch := some b }) acc
    | .Bare => parseGo rest (cur.map fun w => { w with bare := true }) acc
    | .Other => parseGo rest cur acc

/-- `parse_worktree_list` of src/git.rs.  The source wraps the vector in
`Ok(..)` unconditionally, so the embedding returns the list directly. -/
def parse_worktree_list (output : String) : List Worktree :=
  parseGo (strLines output) none []

/-! ## Branch existence resolver (src/git.rs) and creation flow (src/commands/add.rs) -/

/-- Rust `Result<String, _>::unwrap_or_default()`. -/
def unwrapOrDefault (r : Except String String) : String :=
  match r with
  | .ok s => s
  | .error _ => ""

/-- `branch_exists` of src/git.rs.  The two captured git queries (`branch
--list <name>` and `branch -r --list origin/<name>`) are passed in as their
results; each is `unwrap_or_default`ed and tested for non-emptiness, and the
function returns `Ok` unconditionally. -/
def branch_exists (localQuery remoteQuery : Except String String) :
    Except String (Bool × Bool) :=
  let localOut := unwrapOrDefault localQuery
  let remoteOut := unwrapOrDefault remoteQuery
  Except.ok (!(localOut == ""), !(remoteOut == ""))

/-- The `worktree add` argument vector chosen by `run` of src/commands/add.rs
from the `branch_exists` answer. -/
def addWorktreeCmd (localExists remoteExists : Bool)
    (target branch mainBranch : String) : List String :=
  if localExists then
    ["worktree", "add", target, branch]
  else if remoteExists then
    ["worktree", "add", target, "-b", branch, "origin/" ++ branch]
  else
    ["worktree", "add", "--no-track", target, "-b", branch, "origin/" ++ mainBranch]

/-- The creation flow of src/commands/add.rs: query branch existence, then
issue exactly one `worktree add` invocation (the returned list is the list of
git commands issued; a query-layer error would propagate via `?`, which
`branch_exists` never produces). -/
def addRun (localQuery remoteQuery : Except String String)
    (target branch mainBranch : String) : List (List String) :=
  match branch_exists localQuery remoteQuery with
  | .ok (localExists, remoteExists) =>
      [addWorktreeCmd localExists remoteExists target branch mainBranch]
  | .error _ => []

/-! ## GitHub client data and URL parsing (src/github.rs) -/

/-- `PullRequest` of src/github.rs. -/
structure PullRequest where
  number : Nat
  title : String
  state : String
  html_url : String
  draft : Bool
deriving Repr, DecidableEq

/-- Rust `trim_end_matches(".git")`: repeatedly strip a trailing `.git`.
Fuel equals the character count, which bounds the iteration count. -/
def trimEndGitAux : Nat → List Char → List Char
  | 0, l => l
  | n + 1, l =>
    if ".git".data.isSuffixOf l then
      trimEndGitAux n (l.take (l.length - 4))
    else
      l

/-- Rust `str::trim_end_matches(".git")` on the captured URL remainder. -/
def trimEndGit (s : String) : String :=
  ⟨trimEndGitAux s.data.length s.data⟩

/-- `GitHubClient::parse_github_url` of src/github.rs: strip an HTTPS or SSH
GitHub prefix, trim trailing `.git`, split on `/`, and take the first two
segments when at least two exist. -/
def parse_github_url (url : String) : Option (String × String) :=
  if strStartsWith url "https://github.com/" then
    match splitOnCh '/' (trimEndGit (strDrop url 19)).data with
    | a :: b :: _ => some (⟨a⟩, ⟨b⟩)
    | _ => none
  else if strStartsWith url "git@github.com:" then
    match splitOnCh '/' (trimEndGit (strDrop url 15)).data with
    | a :: b :: _ => some (⟨a⟩, ⟨b⟩)
    | _ => none
  else
    none

/-! ## List command display engine, GitHub arm (src/commands/list.rs) -/

/-- `WorktreeDisplay` of src/commands/list.rs. -/
structure WorktreeDisplay where
  branch : String
  pull_request : String
deriving Repr, DecidableEq

/-- The branch-name cell of src/commands/list.rs lines 115–128: strip a
`refs/heads/` prefix; a branchless worktree shows `(bare)` when bare, else
the first eight characters of the head commit. -/
def branchDisplayName (wt : Worktree) : String :=
  match wt.branch with
  | some b => if strStartsWith b "refs/heads/" then strDrop b 11 else b
  | none => if wt.bare then "(bare)" else strTake wt.head 8

/-- The status text of src/commands/list.rs lines 144–154: a draft flag wins,
then the lowercased state is mapped onto the fixed labels, else the state is
passed through uppercased. -/
def statusText (pr : PullRequest) : String :=
  if pr.draft then "DRAFT"
  else if strLower pr.state = "open" then "OPEN"
  else if strLower pr.state = "closed" then "CLOSED"
  else if strLower pr.state = "merged" then "MERGED"
  else strUpper pr.state

/-- The GitHub pull-request cell of src/commands/list.rs lines 136–159, with
the client's `get_pull_requests` passed in as a per-branch lookup: an empty
result shows `-`, the first returned PR is formatted `url (STATUS)`, and a
lookup error degrades to `?`. -/
def githubPrCell (lookup : String → Except String (List PullRequest))
    (branch : String) : String :=
  match lookup branch with
  | .ok [] => "-"
  | .ok (pr :: _) => pr.html_url ++ " (" ++ statusText pr ++ ")"
  | .error _ => "?"

/-- One display row of the loop in src/commands/list.rs (GitHub-classified
repository with a constructed client): the PR cell is fetched only when PR
info is available and the worktree is not bare. -/
def displayRow (lookup : String → Except String (List PullRequest))
    (hasPrInfo : Bool) (wt : Worktree) : WorktreeDisplay :=
  let branch := branchDisplayName wt
  let cell :=
    if hasPrInfo && !wt.bare && !(branch == "(bare)") then
      githubPrCell lookup branch
    else
      "-"
  ⟨branch, cell⟩

/-- The full display loop of src/commands/list.rs `run` for a
GitHub-classified repository: one row per worktree, in listing order.  The
command's entire provider-facing output is this row list; no further
provider data is fetched. -/
def listRunGithub (lookup : String → Except String (List PullRequest))
    (hasPrInfo : Bool) (wts : List Worktree) : List WorktreeDisplay :=
  wts.map (displayRow lookup hasPrInfo)

/-! ## Bitbucket Cloud URL extraction (src/bitbucket_api.rs)

The source matches the regex `bitbucket\.org[:/]([^/]+)/([^/\.]+)` against the
URL.  The embedding replays the regex engine's leftmost-match semantics
directly: try a match at each position from the left; at a given position the
greedy captures are forced, because `[^/]+` must stop exactly at the next `/`
(shortening it can never satisfy the following literal `/`) and nothing
follows the final `[^/\.]+` capture. -/

/-- Character class `[^/]`. -/
def notSlash (c : Char) : Bool := !(c == '/')

/-- Character class `[^/\.]`. -/
def repoChar (c : Char) : Bool := !(c == '/') && !(c == '.')

/-- Attempt the Bitbucket Cloud pattern at one position. -/
def bbMatchAt (l : List Char) : Option (String × String) :=
  if "bitbucket.org".data.isPrefixOf l then
    match l.drop 13 with
    | c :: rest =>
      if c == ':' || c == '/' then
        let cap1 := rest.takeWhile notSlash
        if cap1.isEmpty then none
        else
          match rest.dropWhile notSlash with
          | '/' :: rest2 =>
            let cap2 := rest2.takeWhile repoChar
            if cap2.isEmpty then none else some (⟨cap1⟩, ⟨cap2⟩)
          | _ => none
      else none
    | [] => none
  else none

/-- Leftmost scan for the Bitbucket Cloud pattern. -/
def bbScan : List Char → Option (String × String)
  | [] => none
  | c :: cs =>
    match bbMatchAt (c :: cs) with
    | some r => some r
    | none => bbScan cs

/-- `extract_bitbucket_info_from_url` of src/bitbucket_api.rs. -/
def extract_bitbucket_info_from_url (url : String) : Option (String × String) :=
  if strContains url "bitbucket.org" then bbScan url.data else none

/-! ## Bitbucket Data Center URL extraction (src/bitbucket_data_center_api.rs)

Four regexes are tried in order.  As above, each is replayed with explicit
leftmost scans and forced greedy captures:
`([^/]+)/scm/([^/]+)/([^/\.]+)`, then
`([^/]+)/projects/([^/]+)/repos/([^/\.]+)`, then
`git@([^:]+):([^/]+)/([^/\.]+)`, then
`ssh://git@([^/]+)/([^/]+)/([^/\.]+)`. -/

/-- Character class `[^:]`. -/
def notColon (c : Char) : Bool := !(c == ':')

/-- The `/scm/` and `/projects/.../repos/` patterns normalize the captured
host into an API base with `https://` unless it already starts with the
literal `http` (`base_url.starts_with("http")` in the source). -/
def dcApiBase (host : List Char) : String :=
  if "http".data.isPrefixOf host then ⟨host⟩ else "https://" ++ (⟨host⟩ : String)

/-- Attempt `([^/]+)/scm/([^/]+)/([^/\.]+)` at one position. -/
def dcMatchScmAt (l : List Char) : Option (String × String × String) :=
  let cap1 := l.takeWhile notSlash
  if cap1.isEmpty then none
  else if "/scm/".data.isPrefixOf (l.dropWhile notSlash) then
    let l2 := (l.dropWhile notSlash).drop 5
    let cap2 := l2.takeWhile notSlash
    if cap2.isEmpty then none
    else
      match l2.dropWhile notSlash with
      | '/' :: l3 =>
        let cap3 := l3.takeWhile repoChar
        if cap3.isEmpty then none else some (dcApiBase cap1, ⟨cap2⟩, ⟨cap3⟩)
      | _ => none
  else none

/-- Leftmost scan for the `/scm/` pattern. -/
def dcScanScm : List Char → Option (String × String × String)
  | [] => none
  | c :: cs =>
    match dcMatchScmAt (c :: cs) with
    | some r => some r
    | none => dcScanScm cs

/-- Attempt `([^/]+)/projects/([^/]+)/repos/([^/\.]+)` at one position. -/
def dcMatchProjectsAt (l : List Char) : Option (String × String × String) :=
  let cap1 := l.takeWhile notSlash
  if cap1.isEmpty then none
  else if "/projects/".data.isPrefixOf (l.dropWhile notSlash) then
    let l2 := (l.dropWhile notSlash).drop 10
    let cap2 := l2.takeWhile notSlash
    if cap2.isEmpty then none
    else if "/repos/".data.isPrefixOf (l2.dropWhile notSlash) then
      let l3 := (l2.dropWhile notSlash).drop 7
      let cap3 := l3.takeWhile repoChar
      if cap3.isEmpty then none else some (dcApiBase cap1, ⟨cap2⟩, ⟨cap3⟩)
    else none
  else none

/-- Leftmost scan for the `/projects/` pattern. -/
def dcScanProjects : List Char → Option (String × String × String)
  | [] => none
  | c :: cs =>
    match dcMatchProjectsAt (c :: cs) with
    | some r => some r
    | none => dcScanProjects cs

/-- Attempt `git@([^:]+):([^/]+)/([^/\.]+)` at one position; the API base is
`https://{host}` unconditionally in this arm of the source. -/
def dcMatchSshAt (l : List Char) : Option (String × String × String) :=
  if "git@".data.isPrefixOf l then
    let l1 := l.drop 4
    let cap1 := l1.takeWhile notColon
    if cap1.isEmpty then none
    else
      match l1.dropWhile notColon with
      | ':' :: l2 =>
        let cap2 := l2.takeWhile notSlash
        if cap2.isEmpty then none
        else
          match l2.dropWhile notSlash with
          | '/' :: l3 =>
            let cap3 := l3.takeWhile repoChar
            if cap3.isEmpty then none
            else some ("https://" ++ (⟨cap1⟩ : String), ⟨cap2⟩, ⟨cap3⟩)
          | _ => none
      | _ => none
  else none

/-- Leftmost scan for the SSH pattern. -/
def dcScanSsh : List Char → Option (String × String × String)
  | [] => none
  | c :: cs =>
    match dcMatchSshAt (c :: cs) with
    | some r => some r
    | none => dcScanSsh cs

/-- Attempt `ssh://git@([^/]+)/([^/]+)/([^/\.]+)` at one position; the API
base is `https://{host}` unconditionally in this arm of the source. -/
def dcMatchSshProtoAt (l : List Char) : Option (String × String × String) :=
  if "ssh://git@".data.isPrefixOf l then
    let l1 := l.drop 10
    let cap1 := l1.takeWhile notSlash
    if cap1.isEmpty then none
    else
      match l1.dropWhile notSlash with
      | '/' :: l2 =>
        let cap2 := l2.takeWhile notSlash
        if cap2.isEmpty then none
        else
          match l2.dropWhile notSlash with
          | '/' :: l3 =>
            let cap3 := l3.takeWhile repoChar
            if cap3.isEmpty then none
            else some ("https://" ++ (⟨cap1⟩ : String), ⟨cap2⟩, ⟨cap3⟩)
          | _ => none
      | _ => none
  else none

/-- Leftmost scan for the `ssh://` pattern. -/
def dcScanSshProto : List Char → Option (String × String × String)
  | [] => none
  | c :: cs =>
    match dcMatchSshProtoAt (c :: cs) with
    | some r => some r
    | none => dcScanSshProto cs

/-- `extract_bitbucket_data_center_info_from_url` of
src/bitbucket_data_center_api.rs: the four patterns tried in source order. -/
def extract_bitbucket_data_center_info_from_url (url : String) :
    Option (String × String × String) :=
  match dcScanScm url.data with
  | some r => some r
  | none =>
    match dcScanProjects url.data with
    | some r => some r
    | none =>
      match dcScanSsh url.data with
      | some r => some r
      | none =>
        match dcScanSshProto url.data with
        | some r => some r
        | none => none

/-! ## Synthetic porcelain blocks (input model for the parser claims) -/

/-- One well-formed synthetic porcelain block: a `worktree` path line, a
`HEAD` line, an optional `branch` line, an optional bare `bare` line. -/
structure Block where
  path : String
  head : String
  branch : Option String
  bare : Bool
deriving Repr, DecidableEq

/-- The text lines of a block. -/
def renderBlock (b : Block) : List String :=
  ["worktree " ++ b.path, "HEAD " ++ b.head]
    ++ (match b.branch with
        | some br => ["branch " ++ br]
        | none => [])
    ++ (if b.bare then ["bare"] else [])

/-- The `Worktree` record a block describes. -/
def Block.toWorktree (b : Block) : Worktree :=
  ⟨b.path, b.head, b.branch, b.bare⟩

/-- No newline in an optional field value. -/
def noNewlineOpt : Option String → Prop
  | none => True
  | some s => '\n' ∉ s.data

instance noNewlineOpt.dec : (o : Option String) → Decidable (noNewlineOpt o)
  | none => .isTrue trivial
  | some s => inferInstanceAs (Decidable ('\n' ∉ s.data))

/-- A block's field values contain no newline, so its rendering really is a
sequence of lines. -/
def Block.wf (b : Block) : Prop :=
  '\n' ∉ b.path.data ∧ '\n' ∉ b.head.data ∧ noNewlineOpt b.branch

instance Block.wf.dec (b : Block) : Decidable b.wf :=
  inferInstanceAs (Decidable (_ ∧ _ ∧ _))

/-- The lines of a defective block that has a `worktree` path line but no
`HEAD` line (optional `branch` and `bare` lines retained). -/
def headlessLines (p : String) (br : Option String) (bare : Bool) : List String :=
  ["worktree " ++ p]
    ++ (match br with
        | some b => ["branch " ++ b]
        | none => [])
    ++ (if bare then ["bare"] else [])

/-! ## Parser lemmas -/

theorem isPrefixOf_append_self : ∀ (l r : List Char), l.isPrefixOf (l ++ r) = true := by
  intro l r
  induction l with
  | nil => simp [List.isPrefixOf]
  | cons c cs ih => simp [List.isPrefixOf, ih]

theorem strStartsWith_same (pre p : String) :
    strStartsWith (pre ++ p) pre = true := by
  rw [strStartsWith, string_data_append]
  exact isPrefixOf_append_self _ _

theorem strDrop_same (pre p : String) :
    strDrop (pre ++ p) pre.data.length = p := by
  simp only [strDrop, string_data_append, List.drop_left]

theorem parse_line_worktree (p : String) :
    parse_worktree_line ("worktree " ++ p) = .New p := by
  unfold parse_worktree_line
  rw [if_pos]
  · rw [show (9:Nat) = ("worktree ".data).length from rfl, strDrop_same]
  · exact of_decide_eq_true (by rw [decide_eq_true_eq]; exact strStartsWith_same _ p)

theorem parse_line_head (h : String) :
    parse_worktree_line ("HEAD " ++ h) = .Head h := by
  unfold parse_worktree_line
  rw [if_neg, if_pos]
  · rw [show (5:Nat) = ("HEAD ".data).length from rfl, strDrop_same]
  · exact of_decide_eq_true (by rw [decide_eq_true_eq]; exact strStartsWith_same _ h)
  · simp [strStartsWith, string_data_append, List.isPrefixOf]

theorem parse_line_branch (b : String) :
    parse_worktree_line ("branch " ++ b) = .Branch b := by
  unfold parse_worktree_line
  rw [if_neg, if_neg, if_pos]
  · rw [show (7:Nat) = ("branch ".data).length from rfl, strDrop_same]
  · exact of_decide_eq_true (by rw [decide_eq_true_eq]; exact strStartsWith_same _ b)
  · simp [strStartsWith, string_data_append, List.isPrefixOf]
  · simp [strStartsWith, string_data_append, List.isPrefixOf]

theorem parse_line_bare : parse_worktree_line "bare" = .Bare := by
  unfold parse_worktree_line
  rw [if_neg, if_neg, if_neg, if_pos rfl]
  · simp [strStartsWith]
  · simp [strStartsWith]
  · simp [strStartsWith]

theorem parse_line_empty : parse_worktree_line "" = .Other := by
  unfold parse_worktree_line
  rw [if_neg, if_neg, if_neg, if_neg]
  · intro hc
    have := congrArg String.data hc
    simp at this
  · simp [strStartsWith]
  · simp [strStartsWith]
  · simp [strStartsWith]

/-- Accumulated output is a prefix of the final output. -/
theorem parseGo_acc (ls : List String) :
    ∀ (cur : Option PendingWorktree) (acc : List Worktree),
      parseGo ls cur acc = acc ++ parseGo ls cur [] := by
  induction ls with
  | nil => intro cur acc; simp [parseGo]
  | cons line rest ih =>
    intro cur acc
    cases hpl : parse_worktree_line line with
    | New p =>
      simp only [parseGo, hpl]
      rw [ih (some { path := some p }) (acc ++ flushPending cur),
        ih (some { path := some p }) ([] ++ flushPending cur)]
      simp
    | Head h => simp only [parseGo, hpl]; exact ih _ _
    | Branch b => simp only [parseGo, hpl]; exact ih _ _
    | Bare => simp only [parseGo, hpl]; exact ih _ _
    | Other => simp only [parseGo, hpl]; exact ih _ _

/-- The completed accumulator a whole block leaves behind. -/
def pendingOfBlock (b : Block) : PendingWorktree :=
  ⟨some b.path, some b.head, b.branch, b.bare⟩

/-- Consuming one rendered block flushes the previous accumulator and leaves
the block's own completed accumulator as state. -/
theorem parseGo_block (b : Block) (rest : List String)
    (cur : Option PendingWorktree) (acc : List Worktree) :
    parseGo (renderBlock b ++ rest) cur acc
      = parseGo rest (some (pendingOfBlock b)) (acc ++ flushPending cur) := by
  obtain ⟨p, h, br, bare⟩ := b
  cases br with
  | none =>
    cases bare with
    | false =>
      simp [renderBlock, parseGo, parse_line_worktree, parse_line_head, pendingOfBlock]
    | true =>
      simp [renderBlock, parseGo, parse_line_worktree, parse_line_head,
        parse_line_bare, pendingOfBlock]
  | some brv =>
    cases bare with
    | false =>
      simp [renderBlock, parseGo, parse_line_worktree, parse_line_head,
        parse_line_branch, pendingOfBlock]
    | true =>
      simp [renderBlock, parseGo, parse_line_worktree, parse_line_head,
        parse_line_branch, parse_line_bare, pendingOfBlock]

/-- A completed accumulator flushes to exactly its worktree. -/
theorem flushPending_pendingOfBlock (b : Block) :
    flushPending (some (pendingOfBlock b)) = [b.toWorktree] := rfl

/-- Consuming a rendered block sequence emits one worktree per block, in
order, after flushing whatever accumulator was open. -/
theorem parseGo_blocks (bs : List Block) :
    ∀ (cur : Option PendingWorktree) (acc : List Worktree),
      parseGo (bs.flatMap renderBlock) cur acc
        = acc ++ flushPending cur ++ bs.map Block.toWorktree := by
  induction bs with
  | nil => intro cur acc; simp [parseGo]
  | cons b bs ih =>
    intro cur acc
    rw [List.flatMap_cons, parseGo_block b _ cur acc, ih]
    simp [flushPending_pendingOfBlock]

/-- Lines of a rendered well-formed block contain no newline. -/
theorem renderBlock_no_newline (b : Block) (hb : b.wf) :
    ∀ l ∈ renderBlock b, ∀ c ∈ l.data, c ≠ '\n' := by
  obtain ⟨hp, hh, hbr⟩ := hb
  intro l hl c hc
  rintro rfl
  rw [renderBlock, List.mem_append, List.mem_append] at hl
  rcases hl with (hl | hl) | hl
  · rcases List.mem_cons.mp hl with rfl | hl
    · rw [string_data_append] at hc
      rcases List.mem_append.mp hc with hc | hc
      · simp at hc
      · exact hp hc
    · rcases List.mem_singleton.mp hl with rfl
      rw [string_data_append] at hc
      rcases List.mem_append.mp hc with hc | hc
      · simp at hc
      · exact hh hc
  · cases hbv : b.branch with
    | none => rw [hbv] at hl; simp at hl
    | some brv =>
      rw [hbv] at hl
      rw [hbv] at hbr
      rw [show noNewlineOpt (some brv) = ('\n' ∉ brv.data) from rfl] at hbr
      rcases List.mem_singleton.mp hl with rfl
      rw [string_data_append] at hc
      rcases List.mem_append.mp hc with hc | hc
      · simp at hc
      · exact hbr hc
  · cases hbare : b.bare with
    | false => rw [hbare] at hl; simp at hl
    | true =>
      rw [hbare] at hl
      rw [if_pos rfl] at hl
      rcases List.mem_singleton.mp hl with rfl
      simp at hc

/-- String-level form: joining the rendered lines of well-formed blocks and
re-splitting yields exactly those lines. -/
theorem strLines_joinLines (ls : List String) (hne : ls ≠ [])
    (h : ∀ l ∈ ls, ∀ c ∈ l.data, c ≠ '\n') :
    strLines (joinLines ls) = ls := by
  unfold strLines joinLines
  rw [splitOnCh_joinData (ls.map String.data)
    (by simpa using hne)
    (by intro l hl c hc
        obtain ⟨s, hs, rfl⟩ := List.mem_map.mp hl
        exact h s hs c hc)]
  rw [List.map_map]
  conv_rhs => rw [← List.map_id ls]
  exact List.map_congr_left fun s _ => string_mk_data s

/-- The incomplete accumulator a headless block leaves behind. -/
def pendingHeadless (p : String) (br : Option String) (bare : Bool) : PendingWorktree :=
  ⟨some p, none, br, bare⟩

/-- Consuming a headless block flushes the previous accumulator and leaves an
accumulator with no head. -/
theorem parseGo_headless (p : String) (br : Option String) (bare : Bool)
    (rest : List String) (cur : Option PendingWorktree) (acc : List Worktree) :
    parseGo (headlessLines p br bare ++ rest) cur acc
      = parseGo rest (some (pendingHeadless p br bare)) (acc ++ flushPending cur) := by
  cases br with
  | none =>
    cases bare with
    | false =>
      simp [headlessLines, parseGo, parse_line_worktree, pendingHeadless]
    | true =>
      simp [headlessLines, parseGo, parse_line_worktree, parse_line_bare, pendingHeadless]
  | some brv =>
    cases bare with
    | false =>
      simp [headlessLines, parseGo, parse_line_worktree, parse_line_branch, pendingHeadless]
    | true =>
      simp [headlessLines, parseGo, parse_line_worktree, parse_line_branch,
        parse_line_bare, pendingHeadless]

/-- An accumulator with no head flushes to nothing. -/
theorem flushPending_headless (p : String) (br : Option String) (bare : Bool) :
    flushPending (some (pendingHeadless p br bare)) = [] := rfl

/-- Lines of a rendered headless block contain no newline. -/
theorem headlessLines_no_newline (p : String) (br : Option String) (bare : Bool)
    (hp : '\n' ∉ p.data) (hbr : noNewlineOpt br) :
    ∀ l ∈ headlessLines p br bare, ∀ c ∈ l.data, c ≠ '\n' := by
  intro l hl c hc
  rintro rfl
  rw [headlessLines.eq_def] at hl
  simp only [List.cons_append, List.nil_append, List.mem_cons] at hl
  rcases hl with rfl | hl
  · rw [string_data_append] at hc
    rcases List.mem_append.mp hc with hc | hc
    · simp at hc
    · exact hp hc
  · rcases List.mem_append.mp hl with hl | hl
    · cases hbv : br with
      | none => rw [hbv] at hl; simp at hl
      | some brv =>
        rw [hbv] at hl
        rw [hbv] at hbr
        rw [show noNewlineOpt (some brv) = ('\n' ∉ brv.data) from rfl] at hbr
        rcases List.mem_singleton.mp hl with rfl
        rw [string_data_append] at hc
        rcases List.mem_append.mp hc with hc | hc
        · simp at hc
        · exact hbr hc
    · cases hbare : bare with
      | false => rw [hbare] at hl; simp at hl
      | true =>
        rw [hbare] at hl
        rw [if_pos rfl] at hl
        rcases List.mem_singleton.mp hl with rfl
        simp at hc

/-- A true prefix relation produces the decomposition. -/
theorem isPrefixOf_exists_suffix :
    ∀ (pre l : List Char), pre.isPrefixOf l = true → ∃ t, l = pre ++ t := by
  intro pre
  induction pre with
  | nil => intro l _; exact ⟨l, rfl⟩
  | cons c cs ih =>
    intro l hpl
    cases l with
    | nil => simp [List.isPrefixOf] at hpl
    | cons d ds =>
      simp only [List.isPrefixOf, Bool.and_eq_true, beq_iff_eq] at hpl
      obtain ⟨rfl, h2⟩ := hpl
      obtain ⟨t, rfl⟩ := ih ds h2
      exact ⟨t, rfl⟩

/-- String-level form of the prefix decomposition. -/
theorem strStartsWith_exists_suffix (l pre : String)
    (h : strStartsWith l pre = true) : ∃ t : String, l = pre ++ t := by
  rw [strStartsWith] at h
  obtain ⟨t, ht⟩ := isPrefixOf_exists_suffix pre.data l.data h
  refine ⟨⟨t⟩, ?_⟩
  cases l with
  | mk ld =>
    cases pre with
    | mk pd => exact congrArg String.mk ht

/-- A line of the shape ignored before the first `worktree` line: a `HEAD `
line, a `branch ` line, or the bare literal. -/
def preludeLine (l : String) : Prop :=
  strStartsWith l "HEAD " = true ∨ strStartsWith l "branch " = true ∨ l = "bare"

instance preludeLine.dec (l : String) : Decidable (preludeLine l) :=
  inferInstanceAs (Decidable (_ ∨ _ ∨ _))

/-- With no open accumulator, a prelude-shaped line is a no-op. -/
theorem parseGo_prelude_step (l : String) (h : preludeLine l)
    (rest : List String) (acc : List Worktree) :
    parseGo (l :: rest) none acc = parseGo rest none acc := by
  rcases h with h | h | h
  · obtain ⟨t, rfl⟩ := strStartsWith_exists_suffix l "HEAD " h
    simp [parseGo, parse_line_head]
  · obtain ⟨t, rfl⟩ := strStartsWith_exists_suffix l "branch " h
    simp [parseGo, parse_line_branch]
  · subst h
    simp [parseGo, parse_line_bare]

/-- With no open accumulator, any run of prelude-shaped lines is a no-op. -/
theorem parseGo_prelude_list (pre : List String) (hpre : ∀ l ∈ pre, preludeLine l) :
    ∀ (rest : List String) (acc : List Worktree),
      parseGo (pre ++ rest) none acc = parseGo rest none acc := by
  induction pre with
  | nil => intro rest acc; rfl
  | cons l ls ih =>
    intro rest acc
    rw [List.cons_append, parseGo_prelude_step l (hpre l (by simp)) _ acc,
      ih (fun x hx => hpre x (by simp [hx])) rest acc]

/-! ## Claim theorems: the worktree-list parser -/

/-- C3: parsing the newline-joined rendering of any sequence of well-formed
porcelain blocks (each a `worktree` path line, a `HEAD` line, an optional
`branch` line, an optional bare `bare` line) yields exactly one `Worktree`
per block with the block's field values, in input order; the empty input
yields the empty sequence. -/
theorem parser_round_trip (bs : List Block) (hwf : ∀ b ∈ bs, b.wf) :
    parse_worktree_list (joinLines (bs.flatMap renderBlock)) = bs.map Block.toWorktree ∧
    parse_worktree_list "" = [] := by
  constructor
  · cases bs with
    | nil => decide
    | cons b bs' =>
      rw [parse_worktree_list, strLines_joinLines]
      · rw [parseGo_blocks]
        simp [flushPending]
      · rw [List.flatMap_cons]
        simp [renderBlock]
      · intro l hl
        obtain ⟨b', hb', hlb⟩ := List.mem_flatMap.mp hl
        exact renderBlock_no_newline b' (hwf b' hb') l hlb
  · decide

/-- C3 witness: a two-block instance (one branched, one detached bare). -/
theorem parser_round_trip_witness :
    parse_worktree_list
        (joinLines (([⟨"/r/main", "abc123", some "refs/heads/main", false⟩,
          ⟨"/r/.bare", "fff000", none, true⟩] : List Block).flatMap renderBlock))
      = [⟨"/r/main", "abc123", some "refs/heads/main", false⟩,
          ⟨"/r/.bare", "fff000", (none : Option String), true⟩] ∧
    parse_worktree_list "" = [] := by
  have h := parser_round_trip
    [⟨"/r/main", "abc123", some "refs/heads/main", false⟩,
     ⟨"/r/.bare", "fff000", none, true⟩] (by decide)
  exact ⟨h.1, h.2⟩

/-- C4: a block with a `worktree` path line but no `HEAD` line contributes no
record (here: placed before any sequence of well-formed blocks, the output is
exactly the other blocks' records); and a block with no `branch` line parses
to a record whose branch is `none` — in particular never `some ""`. -/
theorem parser_defensive (p h : String) (br : Option String) (bare bare2 : Bool)
    (bs : List Block) (hp : '\n' ∉ p.data) (hh : '\n' ∉ h.data)
    (hbr : noNewlineOpt br) (hwf : ∀ b ∈ bs, b.wf) :
    parse_worktree_list (joinLines (headlessLines p br bare ++ bs.flatMap renderBlock))
        = bs.map Block.toWorktree ∧
    parse_worktree_list (joinLines (renderBlock ⟨p, h, none, bare2⟩))
        = [⟨p, h, none, bare2⟩] ∧
    (∀ w ∈ parse_worktree_list (joinLines (renderBlock ⟨p, h, none, bare2⟩)),
      w.branch ≠ some "") := by
  have hsingle : parse_worktree_list (joinLines (renderBlock ⟨p, h, none, bare2⟩))
      = [⟨p, h, none, bare2⟩] := by
    rw [parse_worktree_list, strLines_joinLines]
    · have hb : renderBlock ⟨p, h, none, bare2⟩
          = ([(⟨p, h, none, bare2⟩ : Block)]).flatMap renderBlock := by
        simp
      rw [hb, parseGo_blocks]
      simp [flushPending, Block.toWorktree]
    · simp [renderBlock]
    · exact renderBlock_no_newline ⟨p, h, none, bare2⟩ ⟨hp, hh, trivial⟩
  refine ⟨?_, hsingle, ?_⟩
  · rw [parse_worktree_list, strLines_joinLines]
    · rw [parseGo_headless, parseGo_blocks]
      simp [flushPending, pendingHeadless, PendingWorktree.into_worktree]
    · simp [headlessLines]
    · intro l hl
      rcases List.mem_append.mp hl with hl | hl
      · exact headlessLines_no_newline p br bare hp hbr l hl
      · obtain ⟨b', hb', hlb⟩ := List.mem_flatMap.mp hl
        exact renderBlock_no_newline b' (hwf b' hb') l hlb
  · intro w hw
    rw [hsingle, List.mem_singleton] at hw
    subst hw
    simp

/-- C4 witness: a headless block (with a branch line) preceding one
well-formed block, and a branchless block. -/
theorem parser_defensive_witness :
    parse_worktree_list
        (joinLines (headlessLines "/r/broken" (some "refs/heads/dev") false
          ++ ([⟨"/r/main", "abc123", some "refs/heads/main", false⟩] : List Block).flatMap
              renderBlock))
      = [⟨"/r/main", "abc123", some "refs/heads/main", false⟩] ∧
    parse_worktree_list (joinLines (renderBlock ⟨"/r/broken", "beef99", none, false⟩))
      = [⟨"/r/broken", "beef99", (none : Option String), false⟩] := by
  have h := parser_defensive "/r/broken" "beef99" (some "refs/heads/dev") false false
    [⟨"/r/main", "abc123", some "refs/heads/main", false⟩]
    (by decide) (by decide) (by decide) (by decide)
  exact ⟨h.1, h.2.1⟩

/-- C10: any run of `HEAD `, `branch `, or `bare` lines occurring before the
first `worktree` line is ignored: parsing the prefixed text equals parsing
the remaining text alone, for every remaining text. -/
theorem parser_ignores_prelude (pre : List String) (rest : String)
    (hshape : ∀ l ∈ pre, preludeLine l ∧ '\n' ∉ l.data) :
    parse_worktree_list (leadingLinesText pre ++ rest) = parse_worktree_list rest := by
  rw [parse_worktree_list, parse_worktree_list]
  have hdata : (leadingLinesText pre ++ rest).data
      = prefData (pre.map String.data) ++ rest.data := by
    rw [string_data_append]; rfl
  rw [strLines, hdata, splitOnCh_prefData '\n' (pre.map String.data) rest.data rfl
    (by intro l hl c hc
        obtain ⟨s, hs, rfl⟩ := List.mem_map.mp hl
        exact fun hcn => (hshape s hs).2 (hcn ▸ hc))]
  rw [List.map_append, List.map_map]
  have hid : (pre.map (String.mk ∘ String.data)) = pre := by
    conv_rhs => rw [← List.map_id pre]
    exact List.map_congr_left fun s _ => string_mk_data s
  rw [hid]
  exact parseGo_prelude_list pre (fun l hl => (hshape l hl).1) (strLines rest) []

/-- C10 witness: a stray `HEAD`, `branch` and `bare` prelude before a block. -/
theorem parser_ignores_prelude_witness :
    parse_worktree_list
        (leadingLinesText ["HEAD deadbeef", "branch refs/heads/x", "bare"]
          ++ joinLines (renderBlock ⟨"/r/main", "abc123", some "refs/heads/main", false⟩))
      = parse_worktree_list
          (joinLines (renderBlock ⟨"/r/main", "abc123", some "refs/heads/main", false⟩)) := by
  exact parser_ignores_prelude ["HEAD deadbeef", "branch refs/heads/x", "bare"] _ (by decide)

/-! ## Claim theorems: branch existence and creation strategy -/

/-- C8: `branch_exists` always returns successfully with a pair of booleans,
and a failing local or remote query is reported exactly as an empty query
result — i.e. as `false` ("does not exist") for that component. -/
theorem branch_exists_best_effort (lq rq : Except String String) (e1 e2 : String) :
    (∃ pr, branch_exists lq rq = Except.ok pr) ∧
    branch_exists (Except.error e1) rq = branch_exists (Except.ok "") rq ∧
    branch_exists lq (Except.error e2) = branch_exists lq (Except.ok "") :=
  ⟨⟨_, rfl⟩, rfl, rfl⟩

/-- C2: the creation flow issues exactly one `worktree add` command, chosen by
priority: a non-empty local branch listing selects checkout of the existing
local branch; else a non-empty remote listing selects a new tracking branch
from `origin/<branch>`; else a new branch from `origin/<mainBranch>` with
`--no-track`. -/
theorem add_strategy_priority (lq rq : Except String String) (t b m : String) :
    (addRun lq rq t b m).length = 1 ∧
    (unwrapOrDefault lq ≠ "" →
      addRun lq rq t b m = [["worktree", "add", t, b]]) ∧
    (unwrapOrDefault lq = "" → unwrapOrDefault rq ≠ "" →
      addRun lq rq t b m = [["worktree", "add", t, "-b", b, "origin/" ++ b]]) ∧
    (unwrapOrDefault lq = "" → unwrapOrDefault rq = "" →
      addRun lq rq t b m
        = [["worktree", "add", "--no-track", t, "-b", b, "origin/" ++ m]]) := by
  refine ⟨?_, ?_, ?_, ?_⟩
  · by_cases hl : unwrapOrDefault lq = "" <;> by_cases hr : unwrapOrDefault rq = "" <;>
      simp [addRun, branch_exists, addWorktreeCmd, hl, hr]
  · intro hl
    simp [addRun, branch_exists, addWorktreeCmd, hl]
  · intro hl hr
    simp [addRun, branch_exists, addWorktreeCmd, hl, hr]
  · intro hl hr
    simp [addRun, branch_exists, addWorktreeCmd, hl, hr]

/-- C2 witness: the three strategies at concrete query results (a failed
local query behaving as an empty listing). -/
theorem add_strategy_priority_witness :
    addRun (Except.ok "  feature") (Except.ok "") "/w/feature" "feature" "main"
        = [["worktree", "add", "/w/feature", "feature"]] ∧
    addRun (Except.error "boom") (Except.ok "  origin/feature") "/w/feature" "feature" "main"
        = [["worktree", "add", "/w/feature", "-b", "feature", "origin/" ++ "feature"]] ∧
    addRun (Except.ok "") (Except.error "no remote") "/w/feature" "feature" "main"
        = [["worktree", "add", "--no-track", "/w/feature", "-b", "feature",
            "origin/" ++ "main"]] := by
  refine ⟨?_, ?_, ?_⟩
  · exact (add_strategy_priority (Except.ok "  feature") (Except.ok "")
      "/w/feature" "feature" "main").2.1 (by decide)
  · exact (add_strategy_priority (Except.error "boom") (Except.ok "  origin/feature")
      "/w/feature" "feature" "main").2.2.1 (by decide) (by decide)
  · exact (add_strategy_priority (Except.ok "") (Except.error "no remote")
      "/w/feature" "feature" "main").2.2.2 (by decide) (by decide)

/-! ## Claim theorems: provider detection -/

/-- C5: provider detection on the four fixed URLs: the GitHub HTTPS URL
parses to (acme, widgets); the Bitbucket Cloud SSH URL extracts
(acme, widgets); the Data Center `/scm/` URL extracts the normalized API
base with project WID and repo widgets; and the GitLab URL matches none of
the three extractors. -/
theorem provider_detection_determinism :
    parse_github_url "https://github.com/acme/widgets.git" = some ("acme", "widgets") ∧
    extract_bitbucket_info_from_url "git@bitbucket.org:acme/widgets.git"
        = some ("acme", "widgets") ∧
    extract_bitbucket_data_center_info_from_url "https://git.acme.com/scm/WID/widgets.git"
        = some ("https://git.acme.com", "WID", "widgets") ∧
    parse_github_url "https://gitlab.com/acme/widgets" = none ∧
    extract_bitbucket_info_from_url "https://gitlab.com/acme/widgets" = none ∧
    extract_bitbucket_data_center_info_from_url "https://gitlab.com/acme/widgets" = none := by
  decide

/-! ## Claim theorems: list display engine (GitHub arm) -/

/-- The end-to-end scenario's per-branch GitHub lookup: an open PR on
feature/x, an open PR on feature/z known to the provider, none elsewhere. -/
def scenarioLookup (branch : String) : Except String (List PullRequest) :=
  if branch = "feature/x" then
    Except.ok [⟨5, "Feature X", "open", "https://github.com/o/r/pull/5", false⟩]
  else if branch = "feature/z" then
    Except.ok [⟨9, "Feature Z", "open", "https://github.com/o/r/pull/9", false⟩]
  else
    Except.ok []

/-- The end-to-end scenario's three local worktrees. -/
def scenarioWorktrees : List Worktree :=
  [⟨"/w/main", "1111111122223333", some "refs/heads/main", false⟩,
   ⟨"/w/feature/x", "4444444455556666", some "refs/heads/feature/x", false⟩,
   ⟨"/w/feature/y", "7777777788889999", some "refs/heads/feature/y", false⟩]

/-- C1 counterexample: in the concrete GitHub scenario (worktrees on main,
feature/x with an open PR, feature/y without, and a provider-side open PR on
feature/z reachable through the lookup), the engine's entire output is the
three matched rows; it contains no entry for feature/z, so no
`unmatched_remote` component exists, contrary to the claim. -/
theorem list_no_unmatched_remote_counterexample :
    listRunGithub scenarioLookup true scenarioWorktrees
        = [⟨"main", "-"⟩,
           ⟨"feature/x", "https://github.com/o/r/pull/5 (OPEN)"⟩,
           ⟨"feature/y", "-"⟩] ∧
    ∀ row ∈ listRunGithub scenarioLookup true scenarioWorktrees,
      row.branch ≠ "feature/z" := by
  decide

/-- C1 (amended): against a GitHub-classified repository the engine returns
only the per-branch matched results, one row per worktree in listing order;
it fetches no provider-wide open-PR set and returns no `unmatched_remote`;
in the concrete scenario the output is exactly
[(main, none), (feature/x, open PR), (feature/y, none)]. -/
theorem list_matched_only (lookup : String → Except String (List PullRequest))
    (hasPrInfo : Bool) (wts : List Worktree) :
    listRunGithub lookup hasPrInfo wts = wts.map (displayRow lookup hasPrInfo) ∧
    (listRunGithub lookup hasPrInfo wts).length = wts.length ∧
    listRunGithub scenarioLookup true scenarioWorktrees
        = [⟨"main", "-"⟩,
           ⟨"feature/x", "https://github.com/o/r/pull/5 (OPEN)"⟩,
           ⟨"feature/y", "-"⟩] := by
  refine ⟨rfl, ?_, by decide⟩
  simp [listRunGithub]

/-- C9: per-branch lookup failures are isolated.  If lookup `f` fails on
branch `B` while `g` agrees with `f` off `B` and succeeds on `B`, then the
run under `f` is still the full row list (the operation succeeds), every
worktree displaying a branch other than `B` gets exactly the row it gets
under `g`, and a non-bare worktree on `B` gets the degraded `?` cell. -/
theorem list_isolated_failure (f g : String → Except String (List PullRequest))
    (B msg : String) (prs : List PullRequest)
    (hfg : ∀ b, b ≠ B → f b = g b) (hf : f B = Except.error msg)
    (hg : g B = Except.ok prs) (wts : List Worktree) :
    listRunGithub f true wts = wts.map (displayRow f true) ∧
    (∀ wt : Worktree, branchDisplayName wt ≠ B →
      displayRow f true wt = displayRow g true wt) ∧
    (∀ wt : Worktree, branchDisplayName wt = B → wt.bare = false → B ≠ "(bare)" →
      displayRow f true wt = ⟨B, "?"⟩) := by
  refine ⟨rfl, ?_, ?_⟩
  · intro wt hne
    simp only [displayRow]
    rw [githubPrCell, githubPrCell, hfg (branchDisplayName wt) hne]
  · intro wt hB hbare hBbare
    simp only [displayRow, hB, hbare]
    rw [githubPrCell, hf]
    have hbeq : (B == "(bare)") = false := by
      rcases hbeq : B == "(bare)" with _ | _
      · rfl
      · exact absurd (by simpa using hbeq) hBbare
    simp [hbeq]

/-- The C9 witness's failing lookup: a network error on feature/x only. -/
def failingLookup (branch : String) : Except String (List PullRequest) :=
  if branch = "feature/x" then Except.error "network" else Except.ok []

/-- The C9 witness's succeeding lookup. -/
def succeedingLookup (_branch : String) : Except String (List PullRequest) :=
  Except.ok []

/-- C9 witness: with a failure on feature/x only, the feature/x worktree
degrades to `?` while a worktree on another branch gets the same row as
under the fully succeeding lookup. -/
theorem list_isolated_failure_witness :
    displayRow failingLookup true ⟨"/w/feature/x", "abc", some "refs/heads/feature/x", false⟩
        = ⟨"feature/x", "?"⟩ ∧
    displayRow failingLookup true ⟨"/w/main", "def", some "refs/heads/main", false⟩
        = displayRow succeedingLookup true ⟨"/w/main", "def", some "refs/heads/main", false⟩ := by
  have h := list_isolated_failure failingLookup succeedingLookup "feature/x" "network" []
    (by
      intro b hb
      simp [failingLookup, succeedingLookup, hb])
    (by simp [failingLookup]) (by simp [succeedingLookup]) []
  constructor
  · exact h.2.2 ⟨"/w/feature/x", "abc", some "refs/heads/feature/x", false⟩
      (by decide) rfl (by decide)
  · exact h.2.1 ⟨"/w/main", "def", some "refs/heads/main", false⟩ (by decide)

/-! ## Claim theorems: URL extraction details (Bitbucket Cloud / Data Center) -/

theorem takeWhile_append_of_all (p : Char → Bool) :
    ∀ (l r : List Char), (∀ c ∈ l, p c = true) →
      (l ++ r).takeWhile p = l ++ r.takeWhile p := by
  intro l
  induction l with
  | nil => intro r _; rfl
  | cons c cs ih =>
    intro r h
    have hc : p c = true := h c (by simp)
    simp only [List.cons_append, List.takeWhile_cons, hc, if_true]
    rw [ih r (fun x hx => h x (by simp [hx]))]

theorem dropWhile_append_of_all (p : Char → Bool) :
    ∀ (l r : List Char), (∀ c ∈ l, p c = true) →
      (l ++ r).dropWhile p = r.dropWhile p := by
  intro l
  induction l with
  | nil => intro r _; rfl
  | cons c cs ih =>
    intro r h
    have hc : p c = true := h c (by simp)
    simp only [List.cons_append, List.dropWhile_cons, hc, if_true]
    exact ih r (fun x hx => h x (by simp [hx]))

/-- Scanning past one position where the pattern does not match. -/
theorem bbScan_cons_none (c : Char) (cs : List Char) (h : bbMatchAt (c :: cs) = none) :
    bbScan (c :: cs) = bbScan cs := by
  simp [bbScan, h]

/-- The pattern matches where the host literal starts: the workspace capture
is the whole slash-free segment and the repo capture stops at the first `/`
or `.`. -/
theorem bbMatchAt_host (wsd rd : List Char) (hws : wsd ≠ [])
    (h2 : ∀ c ∈ wsd, notSlash c = true) (h3 : rd.takeWhile repoChar ≠ []) :
    bbMatchAt ("bitbucket.org".data ++ ('/' :: (wsd ++ '/' :: rd)))
      = some (⟨wsd⟩, ⟨rd.takeWhile repoChar⟩) := by
  have hcap1 : (wsd ++ '/' :: rd).takeWhile notSlash = wsd := by
    rw [takeWhile_append_of_all notSlash wsd _ h2]
    simp [List.takeWhile_cons, notSlash]
  have hdrop1 : (wsd ++ '/' :: rd).dropWhile notSlash = '/' :: rd := by
    rw [dropWhile_append_of_all notSlash wsd _ h2]
    simp [List.dropWhile_cons, notSlash]
  have hwsE : wsd.isEmpty = false := by
    cases wsd with
    | nil => exact absurd rfl hws
    | cons a as => rfl
  have hrdE : (rd.takeWhile repoChar).isEmpty = false := by
    cases hx : rd.takeWhile repoChar with
    | nil => exact absurd hx h3
    | cons a as => rfl
  unfold bbMatchAt
  rw [if_pos (isPrefixOf_append_self _ _)]
  rw [show (13 : Nat) = ("bitbucket.org".data).length from rfl, List.drop_left]
  simp [hcap1, hdrop1, hwsE, hrdE]

/-- Core computation: on an HTTPS Bitbucket Cloud URL the leftmost regex
match starts at the host. -/
theorem bbScan_at_host (wsd rd : List Char) (hws : wsd ≠ [])
    (h2 : ∀ c ∈ wsd, notSlash c = true) (h3 : rd.takeWhile repoChar ≠ []) :
    bbScan ("https://bitbucket.org/".data ++ (wsd ++ '/' :: rd))
      = some (⟨wsd⟩, ⟨rd.takeWhile repoChar⟩) := by
  show (match bbMatchAt ("bitbucket.org".data ++ ('/' :: (wsd ++ '/' :: rd))) with
    | some r => some r
    | none => bbScan ('i' :: 't' :: 'b' :: 'u' :: 'c' :: 'k' :: 'e' :: 't' :: '.' ::
        'o' :: 'r' :: 'g' :: '/' :: (wsd ++ '/' :: rd))) = _
  rw [bbMatchAt_host wsd rd hws h2 h3]

/-- One occurrence makes the substring test true. -/
theorem containsSub_append_left :
    ∀ (pre l needle : List Char), needle.isPrefixOf l = true →
      containsSub (pre ++ l) needle = true := by
  intro pre
  induction pre with
  | nil =>
    intro l needle h
    cases l with
    | nil =>
      cases needle with
      | nil => rfl
      | cons a as => simp [List.isPrefixOf] at h
    | cons c cs => simp [containsSub, h]
  | cons p ps ih =>
    intro l needle h
    rw [List.cons_append]
    simp [containsSub, ih l needle h]

/-- C7 counterexample: a repo slug with an interior dot is truncated at the
dot, not returned intact: `my.repo` extracts as `my`. -/
theorem bb_interior_dot_counterexample :
    extract_bitbucket_info_from_url "https://bitbucket.org/acme/my.repo"
        = some ("acme", "my") ∧
    extract_bitbucket_info_from_url "https://bitbucket.org/acme/my.repo"
        ≠ some ("acme", "my.repo") := by
  decide

/-- C7 (amended): for HTTPS Bitbucket Cloud URLs
`https://bitbucket.org/{workspace}/{repo}` with a slash-free non-empty
workspace, the extractor returns the workspace together with the repo slug
truncated at the first `/` or `.` character; a trailing `.git` is thereby
excluded, but so is everything after an interior dot. -/
theorem bb_extract_truncates_repo (ws repo : String) (hws : ws.data ≠ [])
    (h2 : ∀ c ∈ ws.data, notSlash c = true)
    (h3 : repo.data.takeWhile repoChar ≠ []) :
    extract_bitbucket_info_from_url ("https://bitbucket.org/" ++ ws ++ "/" ++ repo)
      = some (ws, ⟨repo.data.takeWhile repoChar⟩) := by
  have hdata : ("https://bitbucket.org/" ++ ws ++ "/" ++ repo).data
      = "https://bitbucket.org/".data ++ (ws.data ++ '/' :: repo.data) := by
    rw [string_data_append, string_data_append, string_data_append]
    simp
  have hcontains :
      strContains ("https://bitbucket.org/" ++ ws ++ "/" ++ repo) "bitbucket.org" = true := by
    rw [strContains, hdata]
    rw [show "https://bitbucket.org/".data ++ (ws.data ++ '/' :: repo.data)
        = "https://".data ++ ("bitbucket.org".data ++ ('/' :: (ws.data ++ '/' :: repo.data)))
        from rfl]
    exact containsSub_append_left _ _ _ (isPrefixOf_append_self _ _)
  unfold extract_bitbucket_info_from_url
  rw [if_pos hcontains, hdata, bbScan_at_host ws.data repo.data hws h2 h3,
    string_mk_data]

/-- C7 amended witness: workspace acme with repo slug `my.repo`. -/
theorem bb_extract_truncates_repo_witness :
    extract_bitbucket_info_from_url ("https://bitbucket.org/" ++ "acme" ++ "/" ++ "my.repo")
      = some ("acme", ⟨("my.repo".data).takeWhile repoChar⟩) :=
  bb_extract_truncates_repo "acme" "my.repo" (by decide) (by decide) (by decide)

theorem takeWhile_eq_self_of_all (p : Char → Bool) :
    ∀ (l : List Char), (∀ c ∈ l, p c = true) → l.takeWhile p = l := by
  intro l
  induction l with
  | nil => intro _; rfl
  | cons c cs ih =>
    intro h
    simp only [List.takeWhile_cons, h c (by simp), if_true]
    rw [ih (fun x hx => h x (by simp [hx]))]

/-- C6 counterexample: for the scheme-less host `httpd.example.com/scm/...`
the API base is returned verbatim (because the host merely starts with the
letters `http`), not prefixed with `https://` as the claim requires. -/
theorem dc_api_base_counterexample :
    extract_bitbucket_data_center_info_from_url "httpd.example.com/scm/WID/widgets"
        = some ("httpd.example.com", "WID", "widgets") ∧
    extract_bitbucket_data_center_info_from_url "httpd.example.com/scm/WID/widgets"
        ≠ some ("https://httpd.example.com", "WID", "widgets") := by
  decide

/-- The `/scm/` pattern matches at the start of a slash-free host segment. -/
theorem dcMatchScmAt_host (hd pd rd : List Char) (hhd : hd ≠ [])
    (h1 : ∀ c ∈ hd, notSlash c = true) (hpd : pd ≠ [])
    (h2 : ∀ c ∈ pd, notSlash c = true) (hrd : rd ≠ [])
    (h3 : ∀ c ∈ rd, repoChar c = true) :
    dcMatchScmAt (hd ++ ('/' :: 's' :: 'c' :: 'm' :: '/' :: (pd ++ '/' :: rd)))
      = some (dcApiBase hd, ⟨pd⟩, ⟨rd⟩) := by
  have hcap1 : (hd ++ ('/' :: 's' :: 'c' :: 'm' :: '/' :: (pd ++ '/' :: rd))).takeWhile notSlash
      = hd := by
    rw [takeWhile_append_of_all notSlash hd _ h1]
    simp [List.takeWhile_cons, notSlash]
  have hdrop1 : (hd ++ ('/' :: 's' :: 'c' :: 'm' :: '/' :: (pd ++ '/' :: rd))).dropWhile notSlash
      = '/' :: 's' :: 'c' :: 'm' :: '/' :: (pd ++ '/' :: rd) := by
    rw [dropWhile_append_of_all notSlash hd _ h1]
    simp [List.dropWhile_cons, notSlash]
  have hcap2 : (pd ++ '/' :: rd).takeWhile notSlash = pd := by
    rw [takeWhile_append_of_all notSlash pd _ h2]
    simp [List.takeWhile_cons, notSlash]
  have hdrop2 : (pd ++ '/' :: rd).dropWhile notSlash = '/' :: rd := by
    rw [dropWhile_append_of_all notSlash pd _ h2]
    simp [List.dropWhile_cons, notSlash]
  have hcap3 : rd.takeWhile repoChar = rd := takeWhile_eq_self_of_all repoChar rd h3
  have hhdE : hd.isEmpty = false := by
    cases hd with
    | nil => exact absurd rfl hhd
    | cons a as => rfl
  have hpdE : pd.isEmpty = false := by
    cases pd with
    | nil => exact absurd rfl hpd
    | cons a as => rfl
  have hrdE : rd.isEmpty = false := by
    cases rd with
    | nil => exact absurd rfl hrd
    | cons a as => rfl
  unfold dcMatchScmAt
  rw [hcap1, hdrop1]
  simp [hcap2, hdrop2, hcap3, hhdE, hpdE, hrdE, List.isPrefixOf]

/-- Core computation: the `/scm/` scan succeeds at position zero. -/
theorem dcScanScm_at_zero (hd pd rd : List Char) (hhd : hd ≠ [])
    (h1 : ∀ c ∈ hd, notSlash c = true) (hpd : pd ≠ [])
    (h2 : ∀ c ∈ pd, notSlash c = true) (hrd : rd ≠ [])
    (h3 : ∀ c ∈ rd, repoChar c = true) :
    dcScanScm (hd ++ ('/' :: 's' :: 'c' :: 'm' :: '/' :: (pd ++ '/' :: rd)))
      = some (dcApiBase hd, ⟨pd⟩, ⟨rd⟩) := by
  cases hd with
  | nil => exact absurd rfl hhd
  | cons c cs =>
    show (match dcMatchScmAt ((c :: cs) ++ ('/' :: 's' :: 'c' :: 'm' :: '/' :: (pd ++ '/' :: rd)))
        with
      | some r => some r
      | none => dcScanScm (cs ++ ('/' :: 's' :: 'c' :: 'm' :: '/' :: (pd ++ '/' :: rd)))) = _
    rw [dcMatchScmAt_host (c :: cs) pd rd (by simp) h1 hpd h2 hrd h3]

/-- C6 (amended): for `/scm/`-shaped Data Center URLs
`{host}/scm/{project}/{repo}`, the API base is `https://` prepended to the
host exactly when the host does not start with the literal `http`; a
scheme-less host whose name begins with `http` is returned verbatim. -/
theorem dc_api_base_normalization (host proj repo : String)
    (hh : host.data ≠ []) (h1 : ∀ c ∈ host.data, notSlash c = true)
    (hp : proj.data ≠ []) (h2 : ∀ c ∈ proj.data, notSlash c = true)
    (hr : repo.data ≠ []) (h3 : ∀ c ∈ repo.data, repoChar c = true) :
    extract_bitbucket_data_center_info_from_url (host ++ "/scm/" ++ proj ++ "/" ++ repo)
      = some ((if strStartsWith host "http" then host else "https://" ++ host),
          proj, repo) := by
  have hdata : (host ++ "/scm/" ++ proj ++ "/" ++ repo).data
      = host.data ++ ('/' :: 's' :: 'c' :: 'm' :: '/' :: (proj.data ++ '/' :: repo.data)) := by
    rw [string_data_append, string_data_append, string_data_append]
    simp
  unfold extract_bitbucket_data_center_info_from_url
  rw [hdata, dcScanScm_at_zero host.data proj.data repo.data hh h1 hp h2 hr h3]
  rw [string_mk_data, string_mk_data]
  have happi : dcApiBase host.data
      = (if strStartsWith host "http" then host else "https://" ++ host) := by
    by_cases hcond : "http".data.isPrefixOf host.data = true
    · simp [dcApiBase, strStartsWith, hcond, string_mk_data]
    · simp [dcApiBase, strStartsWith, hcond, string_mk_data]
  rw [happi]

/-- C6 amended witness: an ordinary host gains the `https://` prefix; a
scheme-less host beginning with `http` is returned verbatim. -/
theorem dc_api_base_normalization_witness :
    extract_bitbucket_data_center_info_from_url
        ("git.example.com" ++ "/scm/" ++ "WID" ++ "/" ++ "widgets")
      = some ("https://git.example.com", "WID", "widgets") ∧
    extract_bitbucket_data_center_info_from_url
        ("httpserver.local" ++ "/scm/" ++ "WID" ++ "/" ++ "widgets")
      = some ("httpserver.local", "WID", "widgets") := by
  constructor
  · exact (dc_api_base_normalization "git.example.com" "WID" "widgets"
      (by decide) (by decide) (by decide) (by decide) (by decide) (by decide)).trans
      (by decide)
  · exact (dc_api_base_normalization "httpserver.local" "WID" "widgets"
      (by decide) (by decide) (by decide) (by decide) (by decide) (by decide)).trans
      (by decide)

end GwtSpec
